import Mathlib

/-!
# Verification of the MLB dashboard core logic (src/bref.py)

Shallow embedding of the helper functions and table-filtering steps of
`src/bref.py` (a Streamlit dashboard over pybaseball/pandas), together
with theorems settling the specification claims about them.

Python strings are modelled as `List Char` (sequences of Unicode code
points).  Pandas data frames are modelled as `Table`: an ordered list of
column names plus rows given as association lists from column name to
cell value.
-/

namespace Bref

/-! ## Python values

Cell values and inputs to `strip_accents`.  `strip_accents` receives
arbitrary Python values (line 23 checks `isinstance(text, str)`), so the
model distinguishes strings from non-string values. -/

inductive PyVal where
  | pyStr (s : List Char) : PyVal
  | pyNone : PyVal
  | pyInt (n : Int) : PyVal
  deriving DecidableEq, Repr

def PyVal.isStr : PyVal → Bool
  | .pyStr _ => true
  | _ => false

/-! ## Unicode model for `unicodedata`

`strip_accents` (src/bref.py lines 21-24) calls
`unicodedata.normalize('NFKD', text)` and filters out the characters
with `unicodedata.combining(c) != 0`.  We embed the finite fragment of
the Unicode character database relevant to the characters this
dashboard's name data and the spec's examples involve; every character
outside the table has no decomposition and combining class 0, which
matches Unicode for all ASCII characters in particular.

The combining marks used by the table: -/

def mAcute : Char := Char.ofNat 769   -- U+0301 COMBINING ACUTE ACCENT, ccc 230
def mTilde : Char := Char.ofNat 771   -- U+0303 COMBINING TILDE, ccc 230

/-- U+FB01 LATIN SMALL LIGATURE FI: its Unicode decomposition mapping is
a compatibility one, `<compat> 0066 0069`, so it decomposes under NFKD
but has no canonical decomposition. -/
def fiLig : Char := Char.ofNat 0xFB01

/-- `unicodedata.combining(c) != 0` on the modelled fragment: the two
combining marks above have combining class 230, everything else in the
fragment has class 0. -/
def isCombining (c : Char) : Bool :=
  c == mAcute || c == mTilde

/-- Full compatibility (NFKD) decomposition of one character on the
modelled fragment.  The accented Latin letters decompose canonically
into base letter + combining mark (already in canonical order); the fi
ligature decomposes only under compatibility; every other character is
its own NFKD decomposition. -/
def nfkdDecomp (c : Char) : List Char :=
  if c = 'á' then ['a', mAcute]
  else if c = 'é' then ['e', mAcute]
  else if c = 'í' then ['i', mAcute]
  else if c = 'ó' then ['o', mAcute]
  else if c = 'ú' then ['u', mAcute]
  else if c = 'ñ' then ['n', mTilde]
  else if c = 'É' then ['E', mAcute]
  else if c = fiLig then ['f', 'i']
  else [c]

/-- Full canonical (NFD) decomposition on the modelled fragment.  It
agrees with `nfkdDecomp` on the accented letters (their decompositions
are canonical) and leaves `fiLig` alone (its mapping is compatibility
only). -/
def nfdDecomp (c : Char) : List Char :=
  if c = 'á' then ['a', mAcute]
  else if c = 'é' then ['e', mAcute]
  else if c = 'í' then ['i', mAcute]
  else if c = 'ó' then ['o', mAcute]
  else if c = 'ú' then ['u', mAcute]
  else if c = 'ñ' then ['n', mTilde]
  else if c = 'É' then ['E', mAcute]
  else [c]

/-- `unicodedata.normalize('NFKD', s)`: every character replaced by its
full compatibility decomposition.  (Canonical reordering is a no-op on
the modelled fragment: each table entry is already in canonical order
and all other characters have combining class 0.) -/
def normalizeNFKD (s : List Char) : List Char :=
  s.flatMap nfkdDecomp

/-- src/bref.py lines 21-24, string case:
`"".join(c for c in unicodedata.normalize('NFKD', text) if not unicodedata.combining(c))`. -/
def stripAccentsList (s : List Char) : List Char :=
  (normalizeNFKD s).filter (fun c => !isCombining c)

/-- src/bref.py `strip_accents`: non-strings pass through unchanged
(line 23), strings are NFKD-decomposed and stripped of combining marks
(line 24). -/
def strip_accents : PyVal → PyVal
  | .pyStr s => .pyStr (stripAccentsList s)
  | v => v

/-- The normalizer the spec's words describe for claim C4: identical to
`stripAccentsList` except that the decomposition is canonical (NFD)
rather than compatibility (NFKD).  Kept for comparison with the
implementation. -/
def stripAccentsCanonical (s : List Char) : List Char :=
  (s.flatMap nfdDecomp).filter (fun c => !isCombining c)

/-! ### Basic facts about the normalizer -/

/-- The decomposition table is closed: every character occurring in an
NFKD decomposition is its own decomposition (NFKD output is fully
decomposed). -/
theorem nfkdDecomp_mem (c d : Char) (hd : d ∈ nfkdDecomp c) : nfkdDecomp d = [d] := by
  unfold nfkdDecomp at hd
  split at hd
  · simp only [List.mem_cons, List.not_mem_nil, or_false] at hd
    rcases hd with rfl | rfl <;> decide
  split at hd
  · simp only [List.mem_cons, List.not_mem_nil, or_false] at hd
    rcases hd with rfl | rfl <;> decide
  split at hd
  · simp only [List.mem_cons, List.not_mem_nil, or_false] at hd
    rcases hd with rfl | rfl <;> decide
  split at hd
  · simp only [List.mem_cons, List.not_mem_nil, or_false] at hd
    rcases hd with rfl | rfl <;> decide
  split at hd
  · simp only [List.mem_cons, List.not_mem_nil, or_false] at hd
    rcases hd with rfl | rfl <;> decide
  split at hd
  · simp only [List.mem_cons, List.not_mem_nil, or_false] at hd
    rcases hd with rfl | rfl <;> decide
  split at hd
  · simp only [List.mem_cons, List.not_mem_nil, or_false] at hd
    rcases hd with rfl | rfl <;> decide
  split at hd
  · simp only [List.mem_cons, List.not_mem_nil, or_false] at hd
    rcases hd with rfl | rfl <;> decide
  · simp only [List.mem_singleton] at hd
    subst hd
    unfold nfkdDecomp
    simp_all

/-- Characters that are their own decomposition flatMap to themselves. -/
theorem flatMap_nfkd_fixed (l : List Char) (h : ∀ d ∈ l, nfkdDecomp d = [d]) :
    l.flatMap nfkdDecomp = l := by
  induction l with
  | nil => rfl
  | cons c cs ih =>
      simp only [List.flatMap_cons]
      rw [h c (by simp), ih (fun d hd => h d (by simp [hd]))]
      rfl

/-- Every character of an NFKD-normalized string is fully decomposed. -/
theorem mem_normalizeNFKD_fixed (s : List Char) (d : Char) (hd : d ∈ normalizeNFKD s) :
    nfkdDecomp d = [d] := by
  rcases List.mem_flatMap.mp hd with ⟨c, _, hdc⟩
  exact nfkdDecomp_mem c d hdc

theorem stripAccentsList_idem (s : List Char) :
    stripAccentsList (stripAccentsList s) = stripAccentsList s := by
  unfold stripAccentsList
  show (List.flatMap _ nfkdDecomp).filter _ = _
  rw [flatMap_nfkd_fixed _ (fun d hd =>
    mem_normalizeNFKD_fixed s d (List.mem_of_mem_filter hd))]
  rw [List.filter_filter]
  simp

/-- ASCII characters have no decomposition in the modelled fragment
(true of Unicode: no ASCII character has a decomposition mapping). -/
theorem nfkdDecomp_ascii (c : Char) (h : c.toNat < 128) : nfkdDecomp c = [c] := by
  have h1 : c ≠ 'á' := by rintro rfl; exact absurd h (by decide)
  have h2 : c ≠ 'é' := by rintro rfl; exact absurd h (by decide)
  have h3 : c ≠ 'í' := by rintro rfl; exact absurd h (by decide)
  have h4 : c ≠ 'ó' := by rintro rfl; exact absurd h (by decide)
  have h5 : c ≠ 'ú' := by rintro rfl; exact absurd h (by decide)
  have h6 : c ≠ 'ñ' := by rintro rfl; exact absurd h (by decide)
  have h7 : c ≠ 'É' := by rintro rfl; exact absurd h (by decide)
  have h8 : c ≠ fiLig := by rintro rfl; exact absurd h (by decide)
  simp [nfkdDecomp, h1, h2, h3, h4, h5, h6, h7, h8]

/-- ASCII characters are not combining marks (true of Unicode: all ASCII
characters have combining class 0). -/
theorem isCombining_ascii (c : Char) (h : c.toNat < 128) : isCombining c = false := by
  have h1 : c ≠ mAcute := by rintro rfl; exact absurd h (by decide)
  have h2 : c ≠ mTilde := by rintro rfl; exact absurd h (by decide)
  simp [isCombining, h1, h2]

/-! ## Claim theorems about the normalizer -/

/-- C6: `strip_accents` is idempotent: applying it to its own output
(for any Python value, in particular any already-normalized string)
returns that output unchanged. -/
theorem strip_accents_idempotent (v : PyVal) :
    strip_accents (strip_accents v) = strip_accents v := by
  cases v with
  | pyStr s => simp only [strip_accents, stripAccentsList_idem]
  | pyNone => rfl
  | pyInt n => rfl

/-- C9: every non-string input (e.g. `None` or the integer 42) passes
through `strip_accents` unchanged; the function is total on all modelled
Python values (no exception path exists in lines 21-24). -/
theorem strip_accents_nonstring (v : PyVal) (h : v.isStr = false) :
    strip_accents v = v := by
  cases v <;> simp_all [PyVal.isStr, strip_accents]

theorem strip_accents_nonstring_witness :
    strip_accents PyVal.pyNone = PyVal.pyNone ∧
    strip_accents (PyVal.pyInt 42) = PyVal.pyInt 42 :=
  ⟨strip_accents_nonstring PyVal.pyNone rfl,
   strip_accents_nonstring (PyVal.pyInt 42) rfl⟩

/-- C10: the output of `strip_accents` on a string contains no combining
character, and every all-ASCII string is a fixed point, returned
character-for-character unchanged. -/
theorem strip_accents_invariants (s : List Char) :
    (∀ c ∈ stripAccentsList s, isCombining c = false) ∧
    ((∀ c ∈ s, c.toNat < 128) → stripAccentsList s = s) := by
  constructor
  · intro c hc
    simpa using List.of_mem_filter hc
  · intro h
    unfold stripAccentsList normalizeNFKD
    rw [flatMap_nfkd_fixed s (fun d hd => nfkdDecomp_ascii d (h d hd))]
    rw [List.filter_eq_self.mpr]
    intro c hc
    simp [isCombining_ascii c (h c hc)]

theorem strip_accents_invariants_witness :
    (∀ c ∈ stripAccentsList ['J', 'o', 's', 'é'], isCombining c = false) ∧
    stripAccentsList ['O', 'h', 't', 'a', 'n', 'i'] = ['O', 'h', 't', 'a', 'n', 'i'] :=
  ⟨(strip_accents_invariants ['J', 'o', 's', 'é']).1,
   (strip_accents_invariants ['O', 'h', 't', 'a', 'n', 'i']).2 (by decide)⟩

/-- C4 counterexample: the fi ligature U+FB01 has no canonical
decomposition and is not a combining mark, yet `strip_accents` rewrites
it to "fi", because line 24 uses NFKD (compatibility) normalization, not
the canonical decomposition the claim states.  So the claim's "any
character without a canonical decomposition and without combining marks
is output unchanged" fails on it. -/
theorem strip_accents_not_canonical :
    nfdDecomp fiLig = [fiLig] ∧ isCombining fiLig = false ∧
    stripAccentsList [fiLig] = ['f', 'i'] ∧
    stripAccentsList [fiLig] ≠ stripAccentsCanonical [fiLig] := by decide

/-- C4 amended: `strip_accents` removes all combining marks using
compatibility (NFKD) decomposition, processing the characters
independently in their original order; any character without a
compatibility decomposition and without combining marks is output
unchanged. -/
theorem strip_accents_nfkd_spec (s : List Char) :
    stripAccentsList s = s.flatMap (fun c => (nfkdDecomp c).filter (fun d => !isCombining d)) ∧
    (∀ c, nfkdDecomp c = [c] → isCombining c = false → stripAccentsList [c] = [c]) := by
  constructor
  · unfold stripAccentsList normalizeNFKD
    induction s with
    | nil => rfl
    | cons c cs ih => simp only [List.flatMap_cons, List.filter_append, ih]
  · intro c h1 h2
    unfold stripAccentsList normalizeNFKD
    simp [h1, h2]

theorem strip_accents_nfkd_spec_witness :
    stripAccentsList ['J', 'o', 's', 'é'] =
      ['J', 'o', 's', 'é'].flatMap (fun c => (nfkdDecomp c).filter (fun d => !isCombining d)) ∧
    stripAccentsList ['x'] = ['x'] :=
  ⟨(strip_accents_nfkd_spec ['J', 'o', 's', 'é']).1,
   (strip_accents_nfkd_spec []).2 'x' (by decide) (by decide)⟩

/-! ## Tables

A pandas DataFrame, modelled as an ordered list of column names plus a
list of rows; each row is an association list from column name to cell
value (first binding wins, as `List.lookup` does). -/

structure Table where
  cols : List String
  rows : List (List (String × PyVal))
  deriving DecidableEq, Repr

/-- Python regular-expression fragment actually exercised by the search
queries: a pattern element is a literal character or the metacharacter
dot. -/
inductive RElem where
  | lit (c : Char) : RElem
  | dot : RElem
  deriving DecidableEq, Repr

/-- The characters `re` treats specially (a stray `{` or `}` that forms
no quantifier is literal in Python, so braces are not listed). -/
def isMeta (c : Char) : Bool :=
  c == '.' || c == '^' || c == '$' || c == '*' || c == '+' || c == '?' ||
  c == '[' || c == ']' || c == '\\' || c == '|' || c == '(' || c == ')'

/-- Compile a query string the way `re` reads it, on the modelled
fragment: `.` becomes the any-character element, any other
non-metacharacter is a literal.  A pattern using the remaining
metacharacters is outside the fragment and yields `none` — in Python
those either raise `re.error` (e.g. `"("` or a leading `"+"`), which the
surrounding `try` of the search tab turns into an error message, or
invoke fuller regex semantics not needed for any claim. -/
def compilePattern : List Char → Option (List RElem)
  | [] => some []
  | c :: rest =>
      if c = '.' then (compilePattern rest).map (RElem.dot :: ·)
      else if isMeta c then none
      else (compilePattern rest).map (RElem.lit c :: ·)

/-- One pattern element against one character, with `re.IGNORECASE`
(`case=False` at lines 135 and 165) modelled as lower-casing both sides;
dot matches anything but a newline (no `re.DOTALL`). -/
def elemMatch : RElem → Char → Bool
  | .lit c, d => c.toLower == d.toLower
  | .dot, d => d != '\n'

/-- The pattern matches a prefix of the text. -/
def matchPfx : List RElem → List Char → Bool
  | [], _ => true
  | _ :: _, [] => false
  | p :: ps, c :: cs => elemMatch p c && matchPfx ps cs

/-- `re.search`: the pattern matches starting at some position. -/
def reSearch (p : List RElem) : List Char → Bool
  | [] => matchPfx p []
  | c :: cs => matchPfx p (c :: cs) || reSearch p cs

/-- Case-insensitive literal prefix test (spec-side notion). -/
def pfxCI (q s : List Char) : Bool :=
  (q.map Char.toLower).isPrefixOf (s.map Char.toLower)

/-- Case-insensitive literal substring containment: what the spec means
by "contains the query as a case-insensitive substring". -/
def substrCI (q : List Char) : List Char → Bool
  | [] => pfxCI q []
  | c :: cs => pfxCI q (c :: cs) || substrCI q cs

/-! ## The search steps (src/bref.py lines 133-139 and 164-169) -/

/-- `r.lookup`-based cell access; pandas raises on a missing column, but
the claims only involve rows that do have the column. -/
def getCell (r : List (String × PyVal)) (c : String) : Option PyVal :=
  r.lookup c

/-- Column assignment on one row: `df[name] = value` overwrites an
existing binding in place, otherwise appends the column at the end. -/
def setCell (r : List (String × PyVal)) (c : String) (v : PyVal) :
    List (String × PyVal) :=
  if r.any (fun p => p.1 == c) then
    r.map (fun p => if p.1 == c then (c, v) else p)
  else r ++ [(c, v)]

/-- The row transform of line 134 / 164:
`df['CleanName'] = df['Name'].apply(strip_accents)`. -/
def cleanRow (r : List (String × PyVal)) : List (String × PyVal) :=
  setCell r "CleanName" (strip_accents ((getCell r "Name").getD PyVal.pyNone))

/-- Line 134 / 164 at table level: in-place assignment of the
`CleanName` column (a new column is appended to the column order; an
existing one is overwritten). -/
def addCleanName (t : Table) : Table :=
  { cols := if t.cols.contains "CleanName" then t.cols else t.cols ++ ["CleanName"],
    rows := t.rows.map cleanRow }

/-- The boolean mask of line 135 / 165:
`df['CleanName'].str.contains(q, case=False)` on one row.  On a
non-string cell pandas produces NaN and the row selection fails; the
claims only quantify over tables of rows with (string) names, for which
this branch is unreachable. -/
def rowMask (p : List RElem) (r : List (String × PyVal)) : Bool :=
  match getCell r "CleanName" with
  | some (.pyStr s) => reSearch p s
  | _ => false

/-- `df[mask]`: keep the rows the mask selects, in order. -/
def maskFilter (t : Table) (p : List RElem) : Table :=
  { cols := t.cols, rows := t.rows.filter (rowMask p) }

/-- One projected row: for each requested-and-present column, the row's
cell under that column. -/
def projRow (avail : List String) (r : List (String × PyVal)) :
    List (String × PyVal) :=
  avail.filterMap (fun c => (getCell r c).map (fun v => (c, v)))

/-- Lines 137-139 / 167-169: `available = [c for c in cols if c in
results.columns]` followed by `results[available]`. -/
def projectCols (cols : List String) (t : Table) : Table :=
  let avail := cols.filter (fun c => t.cols.contains c)
  { cols := avail, rows := t.rows.map (projRow avail) }

def hitterCols : List String :=
  ["Name", "Tm", "G", "AB", "R", "H", "HR", "RBI", "BA", "OBP", "SLG", "OPS"]

def pitcherCols : List String :=
  ["Name", "Tm", "G", "W", "L", "BB", "SO", "ERA", "WHIP", "ERA+", "SV"]

/-- The Hitter Search body, lines 133-139: mutate `df` by the
`CleanName` assignment, filter by the query mask, project onto the
requested hitter columns.  Returns the post-state of `df` (the mutated
input table) together with the displayed result; `none` when the query
is outside the modelled regex fragment (in Python, `re.error` caught by
the surrounding `try`). -/
def hitterSearchStep (df : Table) (q : List Char) : Option (Table × Table) :=
  match compilePattern q with
  | none => none
  | some p =>
      let df2 := addCleanName df
      some (df2, projectCols hitterCols (maskFilter df2 p))

/-- The Pitcher Search filtering/projection of lines 164-169 (the
league-average metrics of lines 159-161 read `pdf` without modifying
it and are omitted). -/
def pitcherSearchStep (pdf : Table) (q : List Char) : Option (Table × Table) :=
  match compilePattern q with
  | none => none
  | some p =>
      let pdf2 := addCleanName pdf
      some (pdf2, projectCols pitcherCols (maskFilter pdf2 p))

/-- A row has a string value under `Name`. -/
def hasStrName (r : List (String × PyVal)) : Bool :=
  match getCell r "Name" with
  | some (.pyStr _) => true
  | _ => false

/-- Spec-side row predicate: the row's accent-stripped name contains the
query as a case-insensitive literal substring. -/
def nameMatchesCI (q : List Char) (r : List (String × PyVal)) : Bool :=
  match getCell r "Name" with
  | some (.pyStr s) => substrCI q (stripAccentsList s)
  | _ => false

/-! ## Lemmas about cell assignment and lookup -/

theorem lookup_cons_eval (c k : String) (w : PyVal) (es : List (String × PyVal)) :
    List.lookup c ((k, w) :: es) = if c = k then some w else List.lookup c es := by
  by_cases hck : c = k
  · simp [List.lookup_cons, hck]
  · have hb : (c == k) = false := by simpa using hck
    simp [List.lookup_cons, hb, hck]

theorem lookup_map_set_ne (r : List (String × PyVal)) (c c' : String) (v : PyVal)
    (h : c' ≠ c) :
    (r.map (fun p => if p.1 == c then (c, v) else p)).lookup c' = r.lookup c' := by
  induction r with
  | nil => rfl
  | cons p ps ih =>
      obtain ⟨k, w⟩ := p
      simp only [List.map_cons]
      by_cases hkc : k = c
      · subst hkc
        rw [if_pos (by simp), lookup_cons_eval, lookup_cons_eval, if_neg h, if_neg h]
        exact ih
      · rw [if_neg (by simp [hkc]), lookup_cons_eval, lookup_cons_eval]
        by_cases hck' : c' = k
        · rw [if_pos hck', if_pos hck']
        · rw [if_neg hck', if_neg hck']
          exact ih

theorem lookup_append_single_ne (r : List (String × PyVal)) (c c' : String) (v : PyVal)
    (h : c' ≠ c) : (r ++ [(c, v)]).lookup c' = r.lookup c' := by
  induction r with
  | nil => rw [List.nil_append, lookup_cons_eval, if_neg h]
  | cons p ps ih =>
      obtain ⟨k, w⟩ := p
      rw [List.cons_append, lookup_cons_eval, lookup_cons_eval]
      by_cases hck' : c' = k
      · rw [if_pos hck', if_pos hck']
      · rw [if_neg hck', if_neg hck']
        exact ih

/-- `df[col] = v` leaves every other column's cells unchanged. -/
theorem lookup_setCell_ne (r : List (String × PyVal)) (c c' : String) (v : PyVal)
    (h : c' ≠ c) : (setCell r c v).lookup c' = r.lookup c' := by
  unfold setCell
  split
  · exact lookup_map_set_ne r c c' v h
  · exact lookup_append_single_ne r c c' v h

theorem lookup_map_set_self (r : List (String × PyVal)) (c : String) (v : PyVal)
    (h : r.any (fun p => p.1 == c) = true) :
    (r.map (fun p => if p.1 == c then (c, v) else p)).lookup c = some v := by
  induction r with
  | nil => simp at h
  | cons p ps ih =>
      obtain ⟨k, w⟩ := p
      simp only [List.map_cons]
      by_cases hkc : k = c
      · subst hkc
        rw [if_pos (by simp), lookup_cons_eval, if_pos rfl]
      · rw [if_neg (by simp [hkc]), lookup_cons_eval,
          if_neg (fun hh => hkc hh.symm)]
        apply ih
        have hb : ((k, w).1 == c) = false := by simp [hkc]
        simpa [hb] using h

theorem lookup_append_single_self (r : List (String × PyVal)) (c : String) (v : PyVal)
    (h : r.any (fun p => p.1 == c) = false) : (r ++ [(c, v)]).lookup c = some v := by
  induction r with
  | nil => rw [List.nil_append, lookup_cons_eval, if_pos rfl]
  | cons p ps ih =>
      obtain ⟨k, w⟩ := p
      simp only [List.any_cons, Bool.or_eq_false_iff] at h
      rw [List.cons_append, lookup_cons_eval, if_neg]
      · exact ih h.2
      · intro hh
        subst hh
        simp at h

theorem lookup_none_of_not_any (r : List (String × PyVal)) (c : String)
    (h : r.any (fun p => p.1 == c) = false) : r.lookup c = none := by
  induction r with
  | nil => rfl
  | cons p ps ih =>
      obtain ⟨k, w⟩ := p
      simp only [List.any_cons, Bool.or_eq_false_iff] at h
      rw [lookup_cons_eval, if_neg]
      · exact ih h.2
      · intro hh
        subst hh
        simp at h

/-- `df[col] = v` makes the cell under `col` read back as `v`. -/
theorem lookup_setCell_self (r : List (String × PyVal)) (c : String) (v : PyVal) :
    (setCell r c v).lookup c = some v := by
  unfold setCell
  split
  · exact lookup_map_set_self r c v (by assumption)
  · rename_i h
    rw [Bool.not_eq_true] at h
    exact lookup_append_single_self r c v h

/-- The `CleanName` assignment keeps every other column readable
unchanged. -/
theorem getCell_cleanRow_ne (r : List (String × PyVal)) (c : String)
    (h : c ≠ "CleanName") : getCell (cleanRow r) c = getCell r c :=
  lookup_setCell_ne r "CleanName" c _ h

/-- After line 134, the `CleanName` cell holds the stripped name. -/
theorem getCell_cleanRow_self (r : List (String × PyVal)) :
    getCell (cleanRow r) "CleanName" =
      some (strip_accents ((getCell r "Name").getD PyVal.pyNone)) :=
  lookup_setCell_self r "CleanName" _

/-! ## Regex versus literal substring search -/

/-- A query with no regex metacharacter compiles to the sequence of its
characters as literals. -/
theorem compile_literal (q : List Char) (hq : ∀ c ∈ q, isMeta c = false) :
    compilePattern q = some (q.map RElem.lit) := by
  induction q with
  | nil => rfl
  | cons c cs ih =>
      have hc := hq c (by simp)
      have hdot : ¬(c = '.') := by
        intro hh
        rw [hh] at hc
        simp [isMeta] at hc
      unfold compilePattern
      rw [if_neg hdot, if_neg (by simp [hc]), ih (fun d hd => hq d (by simp [hd]))]
      rfl

/-- Matching a literal pattern at the start of the text is
case-insensitive literal prefix containment. -/
theorem matchPfx_lit (q s : List Char) : matchPfx (q.map RElem.lit) s = pfxCI q s := by
  induction q generalizing s with
  | nil => cases s <;> simp [matchPfx, pfxCI, List.isPrefixOf]
  | cons c cs ih =>
      cases s with
      | nil => simp [matchPfx, pfxCI, List.isPrefixOf]
      | cons d ds =>
          simp only [List.map_cons, matchPfx, elemMatch, pfxCI, List.isPrefixOf]
          rw [ih ds]
          rfl

/-- `re.search` with a purely literal pattern is case-insensitive
literal substring containment. -/
theorem reSearch_lit (q s : List Char) : reSearch (q.map RElem.lit) s = substrCI q s := by
  induction s with
  | nil => exact matchPfx_lit q []
  | cons c cs ih =>
      simp only [reSearch, substrCI, matchPfx_lit, ih]

/-! ## Concrete tables used as inputs -/

/-- A one-row batting table whose only player is named "ab". -/
def tAB : Table :=
  { cols := ["Name"], rows := [[("Name", PyVal.pyStr ['a', 'b'])]] }

/-! ## Claim theorems about the search steps -/

/-- C1 counterexample: on the one-row table with name "ab" and the query
".", the Hitter Search filter keeps the row (pandas `str.contains`
interprets the query as a regular expression, and `.` matches any
character), although "ab" does not contain "." as a literal substring;
and the query "(" does not behave as a literal either — it aborts with
`re.error`.  So the filter does not select by literal substring for
every query. -/
theorem hitter_filter_dot_cex :
    (hitterSearchStep tAB ['.']).isSome = true ∧
    ((hitterSearchStep tAB ['.']).getD (tAB, tAB)).2.rows.length = 1 ∧
    (tAB.rows.filter (nameMatchesCI ['.'])).length = 0 ∧
    hitterSearchStep tAB ['('] = none := by decide

/-- C1 amended: for every query free of regex metacharacters, the
Hitter/Pitcher Search filter selects exactly the rows whose
accent-stripped name contains the query as a case-insensitive literal
substring (in input order, as the mutated rows); queries are interpreted
as regular expressions, so metacharacter queries follow regex semantics
instead. -/
theorem hitter_filter_literal_query (t : Table) (q : List Char)
    (hq : ∀ c ∈ q, isMeta c = false)
    (ht : ∀ r ∈ t.rows, hasStrName r = true) :
    ∃ p, compilePattern q = some p ∧
      (maskFilter (addCleanName t) p).rows =
        (t.rows.filter (nameMatchesCI q)).map cleanRow := by
  refine ⟨q.map RElem.lit, compile_literal q hq, ?_⟩
  show ((t.rows.map cleanRow).filter _) = _
  rw [List.filter_map]
  congr 1
  apply List.filter_congr
  intro r hr
  have hs := ht r hr
  unfold hasStrName at hs
  cases hname : getCell r "Name" with
  | none => rw [hname] at hs; simp at hs
  | some v =>
      cases v with
      | pyStr s =>
          show rowMask _ (cleanRow r) = _
          unfold rowMask nameMatchesCI
          rw [getCell_cleanRow_self, hname]
          simp only [Option.getD_some, strip_accents]
          exact reSearch_lit q _
      | pyNone => rw [hname] at hs; simp at hs
      | pyInt n => rw [hname] at hs; simp at hs

theorem hitter_filter_literal_query_witness :
    ∃ p, compilePattern ['a'] = some p ∧
      (maskFilter (addCleanName tAB) p).rows =
        (tAB.rows.filter (nameMatchesCI ['a'])).map cleanRow :=
  hitter_filter_literal_query tAB ['a'] (by decide) (by decide)

/-- C2 counterexample: the Hitter Search step does not leave its input
table unchanged — on a table without a `CleanName` column, line 134
appends one to the input in place. -/
theorem hitter_step_mutates_input :
    ((hitterSearchStep tAB ['a']).getD (tAB, tAB)).1 ≠ tAB ∧
    ((hitterSearchStep tAB ['a']).getD (tAB, tAB)).1.cols = tAB.cols ++ ["CleanName"] := by
  decide

/-- C2 amended: the filtering-and-projection step mutates its input
table only by assigning the `CleanName` helper column (appended to the
column list when absent); the cells of every other column are unchanged,
and the displayed result is a separate projected table. -/
theorem hitter_step_mutation_only_cleanname (t : Table) (q : List Char)
    (p : List RElem) (hp : compilePattern q = some p) :
    ∃ out, hitterSearchStep t q = some (addCleanName t, out) ∧
      ((addCleanName t).cols = t.cols ∨ (addCleanName t).cols = t.cols ++ ["CleanName"]) ∧
      List.Forall₂ (fun r2 r => ∀ c, c ≠ "CleanName" → List.lookup c r2 = List.lookup c r)
        (addCleanName t).rows t.rows := by
  refine ⟨_, by rw [hitterSearchStep, hp], ?_, ?_⟩
  · unfold addCleanName
    by_cases hc : t.cols.contains "CleanName" = true
    · have hmem : "CleanName" ∈ t.cols := by simpa using hc
      exact Or.inl (by simp [hmem])
    · have hmem : "CleanName" ∉ t.cols := by simpa using hc
      exact Or.inr (by simp [hmem])
  · show List.Forall₂ _ (t.rows.map cleanRow) t.rows
    rw [List.forall₂_map_left_iff]
    rw [List.forall₂_same]
    intro r _ c hcn
    exact getCell_cleanRow_ne r c hcn

theorem hitter_step_mutation_only_cleanname_witness :
    ∃ out, hitterSearchStep tAB ['a'] = some (addCleanName tAB, out) ∧
      ((addCleanName tAB).cols = tAB.cols ∨
        (addCleanName tAB).cols = tAB.cols ++ ["CleanName"]) ∧
      List.Forall₂ (fun r2 r => ∀ c, c ≠ "CleanName" → List.lookup c r2 = List.lookup c r)
        (addCleanName tAB).rows tAB.rows :=
  hitter_step_mutation_only_cleanname tAB ['a'] _ rfl

/-- C7: the projection step returns exactly the requested columns that
are present, in the requested order; a requested column absent from the
table is dropped without error (every row is still produced); no
projected cell carries a column outside the requested list, and every
projected cell's value is the original row's cell under that column. -/
theorem projectCols_spec (cols : List String) (t : Table) :
    (projectCols cols t).cols = cols.filter (fun c => t.cols.contains c) ∧
    (projectCols cols t).rows.length = t.rows.length ∧
    (∀ r ∈ (projectCols cols t).rows, ∀ pr ∈ r, pr.1 ∈ cols) ∧
    (∀ r ∈ t.rows, ∀ pr ∈ projRow (cols.filter (fun c => t.cols.contains c)) r,
      getCell r pr.1 = some pr.2) := by
  refine ⟨rfl, by simp [projectCols], ?_, ?_⟩
  · intro r hr pr hpr
    simp only [projectCols, List.mem_map] at hr
    rcases hr with ⟨r0, _, rfl⟩
    unfold projRow at hpr
    rcases List.mem_filterMap.mp hpr with ⟨c, hc, hmap⟩
    rcases Option.map_eq_some'.mp hmap with ⟨v, hgc, hveq⟩
    rw [← hveq]
    exact List.mem_of_mem_filter hc
  · intro r _ pr hpr
    unfold projRow at hpr
    rcases List.mem_filterMap.mp hpr with ⟨c, _, hmap⟩
    rcases Option.map_eq_some'.mp hmap with ⟨v, hgc, hveq⟩
    rw [← hveq]
    exact hgc

theorem projectCols_spec_witness :
    (projectCols ["Name", "XYZ"] tAB).cols = ["Name"] ∧
    (projectCols ["Name", "XYZ"] tAB).rows.length = tAB.rows.length :=
  ⟨(projectCols_spec ["Name", "XYZ"] tAB).1.trans (by decide),
   (projectCols_spec ["Name", "XYZ"] tAB).2.1⟩

/-- The empty pattern matches every string. -/
theorem reSearch_nil (s : List Char) : reSearch [] s = true := by
  cases s <;> simp [reSearch, matchPfx]

/-- The requested hitter columns never mention `CleanName`, so the
column assignment of line 134 is invisible to the projection. -/
theorem projectCols_addCleanName (t : Table) (cols : List String)
    (hcols : ∀ c ∈ cols, c ≠ "CleanName") :
    projectCols cols (addCleanName t) = projectCols cols t := by
  have hcontains : ∀ c ∈ cols,
      ((addCleanName t).cols.contains c) = (t.cols.contains c) := by
    intro c hc
    unfold addCleanName
    split
    · rfl
    · have : (c == "CleanName") = false := by simpa using hcols c hc
      simp [List.contains, List.elem_eq_mem, List.mem_append, this, hcols c hc]
  have havail : cols.filter (fun c => (addCleanName t).cols.contains c) =
      cols.filter (fun c => t.cols.contains c) :=
    List.filter_congr hcontains
  unfold projectCols
  refine congrArg₂ Table.mk havail ?_
  show ((t.rows.map cleanRow).map _) = _
  rw [List.map_map]
  apply List.map_congr_left
  intro r _
  show projRow _ (cleanRow r) = projRow _ r
  rw [havail]
  apply List.filterMap_congr
  intro c hc
  rw [getCell_cleanRow_ne r c (hcols c (List.mem_of_mem_filter hc))]

/-- C8: with the empty query the Hitter Search filter keeps every row
(the empty regex matches everything), so the step is a pure projection
of the input table onto the requested columns; and for every compiled
query the surviving rows are a sublist (hence in original relative
order) of the table's rows. -/
theorem empty_query_projection (t : Table)
    (ht : ∀ r ∈ t.rows, hasStrName r = true) :
    compilePattern [] = some [] ∧
    (maskFilter (addCleanName t) []).rows = (addCleanName t).rows ∧
    projectCols hitterCols (addCleanName t) = projectCols hitterCols t ∧
    (∀ p, ((maskFilter (addCleanName t) p).rows).Sublist (addCleanName t).rows) := by
  refine ⟨rfl, ?_, ?_, fun p => List.filter_sublist _⟩
  · apply List.filter_eq_self.mpr
    intro r2 hr2
    simp only [addCleanName] at hr2
    rcases List.mem_map.mp hr2 with ⟨r, hr, rfl⟩
    have hs := ht r hr
    unfold hasStrName at hs
    unfold rowMask
    rw [getCell_cleanRow_self]
    cases hname : getCell r "Name" with
    | none => rw [hname] at hs; simp at hs
    | some v =>
        cases v with
        | pyStr s =>
            simp only [Option.getD_some, strip_accents]
            exact reSearch_nil _
        | pyNone => rw [hname] at hs; simp at hs
        | pyInt n => rw [hname] at hs; simp at hs
  · exact projectCols_addCleanName t hitterCols (by decide)

theorem empty_query_projection_witness :
    (maskFilter (addCleanName tAB) []).rows = (addCleanName tAB).rows ∧
    projectCols hitterCols (addCleanName tAB) = projectCols hitterCols tAB :=
  ⟨(empty_query_projection tAB (by decide)).2.1,
   (empty_query_projection tAB (by decide)).2.2.1⟩

/-! ## Connectivity probe (src/bref.py lines 26-34)

`check_bref_status` performs a single `requests.get` (line 29, timeout 5
seconds) and classifies its outcome.  The outcome of that one HTTP
attempt is either a status code or an exception (network failure,
timeout, DNS failure — all handled by the bare `except` of line 33). -/

inductive ProbeOutcome where
  | status (code : Nat) : ProbeOutcome
  | exc : ProbeOutcome
  deriving DecidableEq, Repr

/-- Lines 28-34: classification of the single attempt's outcome. -/
def check_bref_status : ProbeOutcome → String × String
  | .status code =>
      if code = 200 then ("Online", "🟢")
      else if code = 429 then ("Rate Limited", "🟡")
      else ("Blocked", "🔴")
  | .exc => ("Offline", "⚪")

/-- The probe run against the sequence of outcomes successive attempts
would produce: it consumes exactly one outcome (there is no retry loop
in lines 26-34) and reports the number of attempts made.  An empty
sequence means no response can be obtained, i.e. the single attempt
raises. -/
def check_bref_status_run : List ProbeOutcome → (String × String) × Nat
  | [] => (check_bref_status .exc, 1)
  | o :: _ => (check_bref_status o, 1)

/-- C5: the probe is total (it never raises: every outcome of the single
HTTP attempt, status code or exception, yields a result), classifies
exactly as {200 → Online, 429 → Rate Limited, any other status →
Blocked, exception → Offline} with its short label, always returns one
of these four classifications, and makes exactly a single attempt with
no retries (later outcomes in the attempt sequence are never
consulted). -/
theorem check_bref_status_classification (o : ProbeOutcome) :
    (o = .status 200 → check_bref_status o = ("Online", "🟢")) ∧
    (o = .status 429 → check_bref_status o = ("Rate Limited", "🟡")) ∧
    (∀ code, o = .status code → code ≠ 200 → code ≠ 429 →
      check_bref_status o = ("Blocked", "🔴")) ∧
    (o = .exc → check_bref_status o = ("Offline", "⚪")) ∧
    (check_bref_status o = ("Online", "🟢") ∨
      check_bref_status o = ("Rate Limited", "🟡") ∨
      check_bref_status o = ("Blocked", "🔴") ∨
      check_bref_status o = ("Offline", "⚪")) ∧
    (∀ rest, check_bref_status_run (o :: rest) = (check_bref_status o, 1)) := by
  refine ⟨?_, ?_, ?_, ?_, ?_, fun rest => rfl⟩
  · rintro rfl; rfl
  · rintro rfl; rfl
  · rintro code rfl h200 h429
    simp [check_bref_status, h200, h429]
  · rintro rfl; rfl
  · cases o with
    | exc => exact Or.inr (Or.inr (Or.inr rfl))
    | status code =>
        by_cases h200 : code = 200
        · subst h200; exact Or.inl rfl
        · by_cases h429 : code = 429
          · subst h429; exact Or.inr (Or.inl rfl)
          · exact Or.inr (Or.inr (Or.inl (by simp [check_bref_status, h200, h429])))

theorem check_bref_status_classification_witness :
    check_bref_status (.status 200) = ("Online", "🟢") ∧
    check_bref_status (.status 429) = ("Rate Limited", "🟡") ∧
    check_bref_status (.status 500) = ("Blocked", "🔴") ∧
    check_bref_status .exc = ("Offline", "⚪") ∧
    check_bref_status_run [.status 200, .status 429] =
      (check_bref_status (.status 200), 1) :=
  ⟨(check_bref_status_classification (.status 200)).1 rfl,
   (check_bref_status_classification (.status 429)).2.1 rfl,
   (check_bref_status_classification (.status 500)).2.2.1 500 rfl
     (by decide) (by decide),
   (check_bref_status_classification .exc).2.2.2.1 rfl,
   (check_bref_status_classification (.status 200)).2.2.2.2.2 [.status 429]⟩

/-! ## Caching and purge (src/bref.py lines 12-16, 36-42, 50-52)

Two distinct cache layers sit between the UI and the network:

* pybaseball's request cache, enabled by `cache.enable()` (line 14) and
  cleared by `cache.purge()` (line 51 under the "Clear App Cache"
  button): it memoizes the underlying HTTP fetches.
* Streamlit's `@st.cache_data` memo on `get_cached_standings` and
  `get_cached_batting` (lines 36-42), keyed by the year argument, which
  `cache.purge()` does not touch.

The model tracks both layers and a flag saying whether a fetch reached
the remote source.  Time-to-live: the trace below stays within one TTL
window, so entries of either layer do not expire during it. -/

inductive Kind where
  | standings | batting | pitching | schedule
  deriving DecidableEq, Repr

structure AppCaches where
  stStandings : List (Int × Table)
  stBatting : List (Int × Table)
  pybCache : List ((Kind × Int) × Table)
  deriving Repr

/-- The empty cache state at app start. -/
def AppCaches.init : AppCaches := ⟨[], [], []⟩

/-- A pybaseball data call (e.g. `standings(year)`) through pybaseball's
request cache: a hit returns the stored table with no remote call, a
miss performs the remote fetch, stores it and reports the call.  The
`remote` argument stands for the network. -/
def pybFetch (remote : Kind → Int → Table) (s : AppCaches) (k : Kind) (y : Int) :
    Table × AppCaches × Bool :=
  match s.pybCache.lookup (k, y) with
  | some t => (t, s, false)
  | none =>
      let t := remote k y
      (t, { s with pybCache := ((k, y), t) :: s.pybCache }, true)

/-- Lines 36-38: `get_cached_standings` under `@st.cache_data` — the
Streamlit memo is consulted first; only on a miss does the pybaseball
call run, and the result is memoized. -/
def get_cached_standings (remote : Kind → Int → Table) (s : AppCaches) (y : Int) :
    Table × AppCaches × Bool :=
  match s.stStandings.lookup y with
  | some t => (t, s, false)
  | none =>
      let (t, s1, called) := pybFetch remote s .standings y
      (t, { s1 with stStandings := (y, t) :: s1.stStandings }, called)

/-- Lines 40-42: `get_cached_batting`, same two-layer shape. -/
def get_cached_batting (remote : Kind → Int → Table) (s : AppCaches) (y : Int) :
    Table × AppCaches × Bool :=
  match s.stBatting.lookup y with
  | some t => (t, s, false)
  | none =>
      let (t, s1, called) := pybFetch remote s .batting y
      (t, { s1 with stBatting := (y, t) :: s1.stBatting }, called)

/-- Line 51: `cache.purge()` clears pybaseball's request cache — and
only it; the Streamlit `st.cache_data` memos survive. -/
def purge (s : AppCaches) : AppCaches :=
  { s with pybCache := [] }

/-- C3 (code bug): start from the empty caches, fetch the standings of
some year (one remote call), press "Clear App Cache" (`cache.purge()`),
and fetch the same year again: the second fetch is served from the
surviving `st.cache_data` memo and performs NO remote call, contrary to
the claim that after purge the next fetch of a previously cached key
goes to the remote source.  Stated for every remote data source and
every year. -/
theorem purge_then_fetch_no_remote_call (remote : Kind → Int → Table) (y : Int) :
    (get_cached_standings remote AppCaches.init y).2.2 = true ∧
    (get_cached_standings remote
      (purge (get_cached_standings remote AppCaches.init y).2.1) y).2.2 = false ∧
    (get_cached_standings remote
      (purge (get_cached_standings remote AppCaches.init y).2.1) y).1 =
      (get_cached_standings remote AppCaches.init y).1 := by
  refine ⟨rfl, ?_, ?_⟩ <;>
    simp [get_cached_standings, pybFetch, purge, AppCaches.init, List.lookup]

end Bref
